import Mathlib

/-!
Shallow embedding of src/minesweeper.py (the Minesweeper deduction engine)
and verification of the specified properties of its knowledge base.

Python sets of cells are modelled as duplicate-free lists; every operation
of the source uses only membership, insertion and removal, so list order is
semantically irrelevant and kept deterministic.  The in-place mutation of
Sentence objects shared between the knowledge list and local variables is
modelled by explicit state passing, with the sentence under scrutiny
addressed by its index into the knowledge list (mirroring how the Python
loops mutate the very objects the list holds).
-/

namespace Minesweeper

/-- A board cell, an integer coordinate pair, exactly as in the source. -/
abbrev Cell := Int × Int

/-- Embedding of class Sentence: a set of board cells plus the count of how
many of them are mines.  The cells list is duplicate-free (a Python set). -/
structure Sentence where
  cells : List Cell
  count : Int
deriving DecidableEq, Repr

instance : Inhabited Sentence := ⟨⟨[], 0⟩⟩

/-- Python value equality of sentences: set equality of the cell sets
(mutual membership) together with equality of the counts. -/
def Sentence.eqv (a b : Sentence) : Bool :=
  (a.cells.all fun c => decide (c ∈ b.cells)) &&
  (b.cells.all fun c => decide (c ∈ a.cells)) &&
  decide (a.count = b.count)

/-- Sentence.known_mines: all member cells if the count equals the number
of cells, otherwise nothing. -/
def Sentence.known_mines (s : Sentence) : Option (List Cell) :=
  if (s.cells.length : Int) = s.count then some s.cells else none

/-- Sentence.known_safes: all member cells if the count is zero, otherwise
nothing. -/
def Sentence.known_safes (s : Sentence) : Option (List Cell) :=
  if s.count = 0 then some s.cells else none

/-- Sentence.mark_mine: rebuild the cell set without the given cell,
decrementing the count once for each removed occurrence (exactly once on a
duplicate-free list when the cell is a member, zero times otherwise). -/
def Sentence.mark_mine (s : Sentence) (c : Cell) : Sentence :=
  ⟨s.cells.filter fun x => decide (x ≠ c),
   s.count - (if c ∈ s.cells then 1 else 0)⟩

/-- Sentence.mark_safe: rebuild the cell set without the given cell; the
count is unchanged. -/
def Sentence.mark_safe (s : Sentence) (c : Cell) : Sentence :=
  ⟨s.cells.filter fun x => decide (x ≠ c), s.count⟩

/-- Python set.add on the list model: insert the element unless present. -/
def insertC (c : Cell) (l : List Cell) : List Cell :=
  if c ∈ l then l else c :: l

/-- Embedding of class MinesweeperAI: board dimensions, the cells already
probed, the cells known to be mines or safe, and the list of sentences. -/
structure MinesweeperAI where
  height : Int
  width : Int
  moves_made : List Cell
  mines : List Cell
  safes : List Cell
  knowledge : List Sentence
deriving DecidableEq, Repr

/-- The freshly constructed engine of MinesweeperAI.init. -/
def MinesweeperAI.init (h w : Int) : MinesweeperAI :=
  ⟨h, w, [], [], [], []⟩

/-- MinesweeperAI.mark_mine: record the cell in mines and have every stored
sentence mark it as a mine. -/
def MinesweeperAI.mark_mine (st : MinesweeperAI) (c : Cell) : MinesweeperAI :=
  { st with mines := insertC c st.mines,
            knowledge := st.knowledge.map fun s => s.mark_mine c }

/-- MinesweeperAI.mark_safe: record the cell in safes and have every stored
sentence mark it as safe. -/
def MinesweeperAI.mark_safe (st : MinesweeperAI) (c : Cell) : MinesweeperAI :=
  { st with safes := insertC c st.safes,
            knowledge := st.knowledge.map fun s => s.mark_safe c }

/-- Marking a snapshot list of cells safe one after the other, as the
Python loops over a set of discovered safe cells do. -/
def markSafeAll (st : MinesweeperAI) (cs : List Cell) : MinesweeperAI :=
  cs.foldl MinesweeperAI.mark_safe st

/-- Marking a snapshot list of cells as mines one after the other. -/
def markMineAll (st : MinesweeperAI) (cs : List Cell) : MinesweeperAI :=
  cs.foldl MinesweeperAI.mark_mine st

/-- The eight candidate neighbours of a cell, in the row-major order of the
nested loops of add_knowledge (the cell itself is skipped there). -/
def neighborCandidates (cell : Cell) : List Cell :=
  [(cell.1 - 1, cell.2 - 1), (cell.1 - 1, cell.2), (cell.1 - 1, cell.2 + 1),
   (cell.1, cell.2 - 1), (cell.1, cell.2 + 1),
   (cell.1 + 1, cell.2 - 1), (cell.1 + 1, cell.2), (cell.1 + 1, cell.2 + 1)]

/-- The bounds check of add_knowledge. -/
def inBounds (h w : Int) (p : Cell) : Bool :=
  decide (0 ≤ p.1) && decide (p.1 < h) && decide (0 ≤ p.2) && decide (p.2 < w)

/-- The in-bounds neighbours of a cell. -/
def neighbors (h w : Int) (cell : Cell) : List Cell :=
  (neighborCandidates cell).filter (inBounds h w)

/-- How many elements of the first list belong to the second. -/
def countIn (l target : List Cell) : Nat :=
  (l.filter fun c => decide (c ∈ target)).length

/-- One iteration of the inference loop of add_knowledge: compare the
sentence at index k of the knowledge list with the new sentence at index n,
both read at their current (possibly already stripped) values.  Matching
the source: skip equal sentences; when one cell set contains the other,
equal counts mark the whole difference safe, a difference of counts equal
to the size of the cell difference marks it all as mines, and otherwise
the difference sentence is appended to the pending inference list. -/
def inferStep (n : Nat) (st : MinesweeperAI) (acc : List Sentence)
    (k : Nat) : MinesweeperAI × List Sentence :=
  let s := st.knowledge.getD k default
  let t := st.knowledge.getD n default
  if s.eqv t then (st, acc)
  else if s.cells.all fun c => decide (c ∈ t.cells) then
    let diff := t.cells.filter fun c => decide (c ∉ s.cells)
    if s.count = t.count then (markSafeAll st diff, acc)
    else if (diff.length : Int) = t.count - s.count then
      (markMineAll st diff, acc)
    else (st, acc ++ [⟨diff, t.count - s.count⟩])
  else if t.cells.all fun c => decide (c ∈ s.cells) then
    let diff := s.cells.filter fun c => decide (c ∉ t.cells)
    if s.count = t.count then (markSafeAll st diff, acc)
    else if (diff.length : Int) = s.count - t.count then
      (markMineAll st diff, acc)
    else (st, acc ++ [⟨diff, s.count - t.count⟩])
  else (st, acc)

/-- The inference loop, iterating inferStep over every index of the
knowledge list (whose length the marking operations never change). -/
def inferLoop (n : Nat) : Nat → Nat → MinesweeperAI → List Sentence →
    MinesweeperAI × List Sentence
  | 0, _, st, acc => (st, acc)
  | fuel + 1, k, st, acc =>
    let p := inferStep n st acc k
    inferLoop n fuel (k + 1) p.1 p.2

/-- MinesweeperAI.remove_duplicates on the knowledge list: keep the first
occurrence of each Python-equal sentence. -/
def removeDuplicates (kb : List Sentence) : List Sentence :=
  kb.foldl (fun acc s => if acc.any fun u => s.eqv u then acc else acc ++ [s]) []

/-- One iteration of add_known_safes_and_mines: read the sentence at index
k at its current value, extract its trivial conclusions, mark them (which
strips them from every stored sentence), and remember the index when the
sentence yielded nothing; Python truthiness keeps a sentence whose
extraction returns nothing or an empty set. -/
def harvestStep (st : MinesweeperAI) (kept : List Nat) (k : Nat) :
    MinesweeperAI × List Nat :=
  let s := st.knowledge.getD k default
  let sf := s.known_safes
  let mn := s.known_mines
  let truthySf := match sf with
    | some l => !l.isEmpty
    | none => false
  let truthyMn := match mn with
    | some l => !l.isEmpty
    | none => false
  let st1 := match sf with
    | some l => if l.isEmpty then st else markSafeAll st l
    | none => st
  let st2 := match mn with
    | some l => if l.isEmpty then st1 else markMineAll st1 l
    | none => st1
  (st2, if truthySf || truthyMn then kept else kept ++ [k])

/-- The loop of add_known_safes_and_mines over all indices. -/
def harvestLoop : Nat → Nat → MinesweeperAI → List Nat →
    MinesweeperAI × List Nat
  | 0, _, st, kept => (st, kept)
  | fuel + 1, k, st, kept =>
    let p := harvestStep st kept k
    harvestLoop fuel (k + 1) p.1 p.2

/-- MinesweeperAI.add_known_safes_and_mines: harvest the trivial
conclusions of every stored sentence, then keep (at their final, possibly
further stripped values) exactly the sentences that yielded none. -/
def MinesweeperAI.add_known_safes_and_mines (st : MinesweeperAI) :
    MinesweeperAI :=
  let p := harvestLoop st.knowledge.length 0 st []
  { p.1 with knowledge := p.2.map fun i => p.1.knowledge.getD i default }

/-- MinesweeperAI.add_knowledge: record the move, mark the observed cell
safe, build the new sentence from the in-bounds neighbours not already
known (decrementing the count for each known mine among them), append it,
run the inference loop of the new sentence against every stored sentence,
extend the store with the pending inferences, de-duplicate, and harvest. -/
def MinesweeperAI.add_knowledge (st : MinesweeperAI) (cell : Cell)
    (count : Int) : MinesweeperAI :=
  let st1 := { st with moves_made := insertC cell st.moves_made }
  let st2 := st1.mark_safe cell
  let nbrs := neighbors st2.height st2.width cell
  let newCells := nbrs.filter fun p =>
    decide (p ∉ st2.mines) && decide (p ∉ st2.safes)
  let newCount : Int := count - (countIn nbrs st2.mines : Int)
  let st3 := { st2 with knowledge := st2.knowledge ++ [⟨newCells, newCount⟩] }
  let n := st3.knowledge.length - 1
  let p := inferLoop n st3.knowledge.length 0 st3 []
  let st5 := { p.1 with knowledge := p.1.knowledge ++ p.2 }
  let st6 := { st5 with knowledge := removeDuplicates st5.knowledge }
  st6.add_known_safes_and_mines

/-- MinesweeperAI.make_safe_move, returning both the chosen move and the
engine state afterwards: the pop of the source acts on the freshly
computed difference list, and the engine state is returned as it was. -/
def MinesweeperAI.make_safe_move (st : MinesweeperAI) :
    Option Cell × MinesweeperAI :=
  let safeCells := st.safes.filter fun c => decide (c ∉ st.moves_made)
  match safeCells with
  | [] => (none, st)
  | c :: _ => (some c, st)

/-- The full board grid in row-major order, as built by make_random_move. -/
def gridCells (h w : Int) : List Cell :=
  (List.range h.toNat).flatMap fun i =>
    (List.range w.toNat).map fun j => ((i : Int), (j : Int))

/-- The loop of make_random_move: repeatedly let the injected random
source pick an element of the remaining candidate list, remove it, and
return it when it is neither a made move nor a known mine. -/
def randLoop (pick : List Cell → Nat) (st : MinesweeperAI) :
    Nat → List Cell → Option Cell
  | 0, _ => none
  | _ + 1, [] => none
  | fuel + 1, m :: ms =>
    let l := m :: ms
    let c := l.getD (pick l % l.length) default
    if decide (c ∉ st.moves_made) && decide (c ∉ st.mines) then some c
    else randLoop pick st fuel (l.erase c)

/-- MinesweeperAI.make_random_move, with the source-language global random
generator replaced by an explicit index-picking oracle. -/
def MinesweeperAI.make_random_move (pick : List Cell → Nat)
    (st : MinesweeperAI) : Option Cell :=
  let moves := gridCells st.height st.width
  randLoop pick st moves.length moves

/-! ## Semantic layer: truth of sentences with respect to a mine layout -/

/-- Number of cells of the list that are mines of the layout M. -/
def countMines (M : List Cell) (cs : List Cell) : Nat :=
  (cs.filter fun c => decide (c ∈ M)).length

/-- A sentence is sound for a layout when its cell list is duplicate-free
(it models a Python set) and its count is exactly the number of its cells
that are mines of the layout. -/
def Sentence.Sound (M : List Cell) (s : Sentence) : Prop :=
  s.cells.Nodup ∧ (countMines M s.cells : Int) = s.count

/-- The engine invariant: every stored sentence is sound, every cell in
safes is truly not a mine, and every cell in mines truly is one. -/
def MinesweeperAI.Inv (M : List Cell) (st : MinesweeperAI) : Prop :=
  (∀ s ∈ st.knowledge, s.Sound M) ∧
  (∀ c ∈ st.safes, c ∉ M) ∧
  (∀ c ∈ st.mines, c ∈ M)

/-- The safes and mines sets of the first state are contained in those of
the second. -/
def grows (a b : MinesweeperAI) : Prop :=
  a.safes ⊆ b.safes ∧ a.mines ⊆ b.mines

/-! ## Driver actions and reachable states -/

/-- A driver action: an observation passed to add_knowledge, or a direct
authoritative mine flag passed to mark_mine. -/
inductive Act where
  | observe (cell : Cell) (count : Int)
  | flag (cell : Cell)
deriving DecidableEq, Repr

/-- The state transition of one driver action. -/
def MinesweeperAI.applyAct (st : MinesweeperAI) : Act → MinesweeperAI
  | Act.observe c k => st.add_knowledge c k
  | Act.flag c => st.mark_mine c

/-- The documented precondition of an action for the mine layout M: an
observed cell is truly safe and its count is the true number of mines
among its in-bounds neighbours; a flagged cell is truly a mine. -/
def actPre (M : List Cell) (st : MinesweeperAI) : Act → Prop
  | Act.observe c k =>
      c ∉ M ∧ (countMines M (neighbors st.height st.width c) : Int) = k
  | Act.flag c => c ∈ M

/-- Every action of the trace satisfies its precondition in the state in
which it runs. -/
def tracePre (M : List Cell) : MinesweeperAI → List Act → Prop
  | _, [] => True
  | st, a :: tr => actPre M st a ∧ tracePre M (st.applyAct a) tr

/-- Run a trace of driver actions from a state. -/
def runTrace (st : MinesweeperAI) (tr : List Act) : MinesweeperAI :=
  tr.foldl MinesweeperAI.applyAct st

instance (M : List Cell) (st : MinesweeperAI) (a : Act) :
    Decidable (actPre M st a) :=
  match a with
  | Act.observe c k => decidable_of_iff
      (c ∉ M ∧ (countMines M (neighbors st.height st.width c) : Int) = k)
      Iff.rfl
  | Act.flag c => decidable_of_iff (c ∈ M) Iff.rfl

instance tracePreDec (M : List Cell) : (st : MinesweeperAI) →
    (tr : List Act) → Decidable (tracePre M st tr)
  | _, [] => decidable_of_iff True Iff.rfl
  | st, a :: tr =>
    have : Decidable (tracePre M (st.applyAct a) tr) :=
      tracePreDec M (st.applyAct a) tr
    decidable_of_iff (actPre M st a ∧ tracePre M (st.applyAct a) tr) Iff.rfl

/-- Trace of C1: a precondition-respecting observation sequence on the
3 by 3 board with the single mine (0,0). -/
def traceC1 : List Act :=
  [Act.observe (1, 0) 1, Act.observe (0, 1) 1, Act.observe (1, 2) 0]

/-- Trace of C2: a precondition-respecting observation sequence on the
3 by 3 board with the single mine (0,0). -/
def traceC2 : List Act :=
  [Act.observe (2, 1) 0, Act.observe (2, 2) 0,
   Act.observe (1, 0) 1, Act.observe (1, 1) 1]

theorem countMines_le_length (M l : List Cell) : countMines M l ≤ l.length :=
  List.length_filter_le _ _

theorem countMines_split (M l : List Cell) (p : Cell → Bool) :
    countMines M l = countMines M (l.filter p) +
      countMines M (l.filter fun x => !(p x)) := by
  induction l with
  | nil => rfl
  | cons a l ih =>
    simp only [countMines, List.filter_cons] at *
    by_cases haM : a ∈ M <;> cases hp : p a <;> simp [haM, hp, ih] <;> omega

theorem countMines_filter_not_mem {M : List Cell} {c : Cell} (hc : c ∉ M)
    (l : List Cell) :
    countMines M (l.filter fun x => decide (x ≠ c)) = countMines M l := by
  unfold countMines
  rw [List.filter_filter]
  congr 1
  apply List.filter_congr
  intro x _
  by_cases hxM : x ∈ M
  · have hxc : x ≠ c := fun he => hc (he ▸ hxM)
    simp [hxM, hxc]
  · simp [hxM]

theorem filter_eq_singleton {l : List Cell} {c : Cell} (hl : l.Nodup)
    (hc : c ∈ l) : l.filter (fun x => decide (x = c)) = [c] := by
  induction l with
  | nil => cases hc
  | cons a l ih =>
    rcases List.mem_cons.mp hc with h | h
    · have hnotin : a ∉ l := (List.nodup_cons.mp hl).1
      subst h
      have hnil : l.filter (fun x => decide (x = c)) = [] :=
        List.filter_eq_nil_iff.mpr fun x hx => by
          simp only [decide_eq_true_eq]
          exact fun he => hnotin (he ▸ hx)
      simp [List.filter_cons, hnil]
    · have hac : a ≠ c := fun he => (List.nodup_cons.mp hl).1 (he ▸ h)
      have ih2 := ih (List.nodup_cons.mp hl).2 h
      simp [List.filter_cons, hac, ih2]

theorem countMines_filter_mem {M : List Cell} {c : Cell} (hc : c ∈ M)
    {l : List Cell} (hl : l.Nodup) (hcl : c ∈ l) :
    countMines M (l.filter fun x => decide (x ≠ c)) + 1 = countMines M l := by
  have hsplit := countMines_split M l (fun x => decide (x ≠ c))
  have hneg : (l.filter fun x => !(decide (x ≠ c))) =
      l.filter (fun x => decide (x = c)) := by
    apply List.filter_congr
    intro x _
    simp
  have hsing := filter_eq_singleton hl hcl
  rw [hneg, hsing] at hsplit
  have hone : countMines M [c] = 1 := by simp [countMines, hc]
  omega

theorem countMines_perm {M l1 l2 : List Cell} (h : l1.Perm l2) :
    countMines M l1 = countMines M l2 :=
  (h.filter _).length_eq

theorem countMines_subset {M l1 l2 : List Cell} (h1 : l1.Nodup)
    (h2 : l2.Nodup) (hsub : l1 ⊆ l2) :
    countMines M l2 = countMines M l1 +
      countMines M (l2.filter fun x => decide (x ∉ l1)) := by
  have hperm : (l2.filter fun x => decide (x ∈ l1)).Perm l1 := by
    apply List.Subperm.antisymm
    · exact List.subperm_of_subset (h2.filter _)
        (fun x hx => by simpa using (List.mem_filter.mp hx).2)
    · exact List.subperm_of_subset h1
        (fun x hx => List.mem_filter.mpr ⟨hsub hx, by simpa using hx⟩)
  have hsplit := countMines_split M l2 (fun x => decide (x ∈ l1))
  have hco : (l2.filter fun x => !(decide (x ∈ l1))) =
      (l2.filter fun x => decide (x ∉ l1)) := by
    apply List.filter_congr
    intro x _
    simp
  rw [hco] at hsplit
  rw [hsplit, countMines_perm hperm]

theorem countMines_eq_zero {M l : List Cell} (h : countMines M l = 0) :
    ∀ c ∈ l, c ∉ M := by
  intro c hc hcM
  have : (l.filter fun x => decide (x ∈ M)) = [] := List.length_eq_zero.mp h
  have := List.filter_eq_nil_iff.mp this c hc
  simp [hcM] at this

theorem countMines_eq_length {M l : List Cell} (h : countMines M l = l.length) :
    ∀ c ∈ l, c ∈ M := by
  intro c hc
  have := List.filter_length_eq_length.mp h c hc
  simpa using this

theorem Sentence.Sound.count_bounds {M : List Cell} {s : Sentence}
    (h : s.Sound M) : 0 ≤ s.count ∧ s.count ≤ (s.cells.length : Int) := by
  obtain ⟨-, hc⟩ := h
  have := countMines_le_length M s.cells
  omega

theorem Sentence.Sound.of_mark_safe {M : List Cell} {s : Sentence} {c : Cell}
    (h : s.Sound M) (hc : c ∉ M) : (s.mark_safe c).Sound M := by
  obtain ⟨hnd, hcount⟩ := h
  refine ⟨hnd.filter _, ?_⟩
  simp only [Sentence.mark_safe]
  rw [countMines_filter_not_mem hc]
  exact hcount

theorem Sentence.Sound.of_mark_mine {M : List Cell} {s : Sentence} {c : Cell}
    (h : s.Sound M) (hc : c ∈ M) : (s.mark_mine c).Sound M := by
  obtain ⟨hnd, hcount⟩ := h
  refine ⟨hnd.filter _, ?_⟩
  simp only [Sentence.mark_mine]
  by_cases hcl : c ∈ s.cells
  · have := countMines_filter_mem hc hnd hcl
    simp only [hcl, if_pos]
    omega
  · have hall : ∀ x ∈ s.cells, x ≠ c := fun x hx he => hcl (he ▸ hx)
    have : s.cells.filter (fun x => decide (x ≠ c)) = s.cells :=
      List.filter_eq_self.mpr fun x hx => by simpa using hall x hx
    simp only [hcl, if_neg, if_false]
    rw [this]
    simpa using hcount

theorem Sentence.Sound.known_safes_sound {M : List Cell} {s : Sentence}
    {l : List Cell} (h : s.Sound M) (hl : s.known_safes = some l) :
    ∀ c ∈ l, c ∉ M := by
  obtain ⟨-, hcount⟩ := h
  simp only [Sentence.known_safes] at hl
  split at hl
  · cases hl
    rename_i hz
    refine countMines_eq_zero ?_
    omega
  · cases hl

theorem Sentence.Sound.known_mines_sound {M : List Cell} {s : Sentence}
    {l : List Cell} (h : s.Sound M) (hl : s.known_mines = some l) :
    ∀ c ∈ l, c ∈ M := by
  obtain ⟨-, hcount⟩ := h
  simp only [Sentence.known_mines] at hl
  split at hl
  · cases hl
    rename_i hlen
    refine countMines_eq_length ?_
    omega
  · cases hl

theorem default_sound (M : List Cell) : (default : Sentence).Sound M := by
  constructor
  · exact List.nodup_nil
  · rfl

theorem getD_sound {M : List Cell} {st : MinesweeperAI}
    (h : st.Inv M) (k : Nat) : (st.knowledge.getD k default).Sound M := by
  by_cases hk : k < st.knowledge.length
  · rw [List.getD_eq_getElem _ _ hk]
    exact h.1 _ (st.knowledge.getElem_mem hk)
  · rw [List.getD_eq_default _ _ (Nat.le_of_not_lt hk)]
    exact default_sound M

theorem MinesweeperAI.Inv.mark_safe_inv {M : List Cell} {st : MinesweeperAI}
    {c : Cell} (h : st.Inv M) (hc : c ∉ M) : (st.mark_safe c).Inv M := by
  obtain ⟨hkb, hs, hm⟩ := h
  refine ⟨?_, ?_, hm⟩
  · intro s hmem
    obtain ⟨s0, hs0, rfl⟩ := List.mem_map.mp hmem
    exact (hkb s0 hs0).of_mark_safe hc
  · intro x hx
    simp only [MinesweeperAI.mark_safe, insertC] at hx
    split at hx
    · exact hs x hx
    · rcases List.mem_cons.mp hx with rfl | hx
      · exact hc
      · exact hs x hx

theorem MinesweeperAI.Inv.mark_mine_inv {M : List Cell} {st : MinesweeperAI}
    {c : Cell} (h : st.Inv M) (hc : c ∈ M) : (st.mark_mine c).Inv M := by
  obtain ⟨hkb, hs, hm⟩ := h
  refine ⟨?_, hs, ?_⟩
  · intro s hmem
    obtain ⟨s0, hs0, rfl⟩ := List.mem_map.mp hmem
    exact (hkb s0 hs0).of_mark_mine hc
  · intro x hx
    simp only [MinesweeperAI.mark_mine, insertC] at hx
    split at hx
    · exact hm x hx
    · rcases List.mem_cons.mp hx with rfl | hx
      · exact hc
      · exact hm x hx

theorem MinesweeperAI.Inv.markSafeAll_inv {M : List Cell} {cs : List Cell} :
    ∀ {st : MinesweeperAI}, st.Inv M → (∀ c ∈ cs, c ∉ M) →
      (markSafeAll st cs).Inv M := by
  induction cs with
  | nil => intro st h _; exact h
  | cons a cs ih =>
    intro st h hcs
    exact ih (h.mark_safe_inv (hcs a (List.mem_cons_self a cs)))
      fun c hc => hcs c (List.mem_cons_of_mem a hc)

theorem MinesweeperAI.Inv.markMineAll_inv {M : List Cell} {cs : List Cell} :
    ∀ {st : MinesweeperAI}, st.Inv M → (∀ c ∈ cs, c ∈ M) →
      (markMineAll st cs).Inv M := by
  induction cs with
  | nil => intro st h _; exact h
  | cons a cs ih =>
    intro st h hcs
    exact ih (h.mark_mine_inv (hcs a (List.mem_cons_self a cs)))
      fun c hc => hcs c (List.mem_cons_of_mem a hc)

/-! The subset-inference rule is sound: when the cells of sentence a are
contained in those of sentence b, the cells of b outside a hold exactly
the difference of the counts many mines. -/

theorem rule_count {M : List Cell} {a b : Sentence} (ha : a.Sound M)
    (hb : b.Sound M) (hsub : ∀ c ∈ a.cells, c ∈ b.cells) :
    (countMines M (b.cells.filter fun c => decide (c ∉ a.cells)) : Int) =
      b.count - a.count := by
  have := countMines_subset (M := M) ha.1 hb.1 hsub
  have hac := ha.2
  have hbc := hb.2
  omega

theorem rule_safe {M : List Cell} {a b : Sentence} (ha : a.Sound M)
    (hb : b.Sound M) (hsub : ∀ c ∈ a.cells, c ∈ b.cells)
    (heq : a.count = b.count) :
    ∀ c ∈ (b.cells.filter fun c => decide (c ∉ a.cells)), c ∉ M := by
  have h := rule_count ha hb hsub
  refine countMines_eq_zero ?_
  omega

theorem rule_mine {M : List Cell} {a b : Sentence} (ha : a.Sound M)
    (hb : b.Sound M) (hsub : ∀ c ∈ a.cells, c ∈ b.cells)
    (hlen : ((b.cells.filter fun c => decide (c ∉ a.cells)).length : Int) =
      b.count - a.count) :
    ∀ c ∈ (b.cells.filter fun c => decide (c ∉ a.cells)), c ∈ M := by
  have h := rule_count ha hb hsub
  refine countMines_eq_length ?_
  omega

theorem rule_sent {M : List Cell} {a b : Sentence} (ha : a.Sound M)
    (hb : b.Sound M) (hsub : ∀ c ∈ a.cells, c ∈ b.cells) :
    Sentence.Sound M ⟨b.cells.filter fun c => decide (c ∉ a.cells),
      b.count - a.count⟩ :=
  ⟨hb.1.filter _, rule_count ha hb hsub⟩

theorem inferStep_inv {M : List Cell} {st : MinesweeperAI}
    {acc : List Sentence} {n k : Nat} (hinv : st.Inv M)
    (hacc : ∀ s ∈ acc, s.Sound M) :
    (inferStep n st acc k).1.Inv M ∧
      ∀ s ∈ (inferStep n st acc k).2, s.Sound M := by
  have hs := getD_sound hinv k
  have ht := getD_sound hinv n
  simp only [inferStep]
  split
  · exact ⟨hinv, hacc⟩
  split
  · rename_i hall
    have hsub : ∀ c ∈ (st.knowledge.getD k default).cells,
        c ∈ (st.knowledge.getD n default).cells := by
      intro c hc
      have := List.all_eq_true.mp hall c hc
      simpa using this
    split
    · rename_i hcnt
      exact ⟨hinv.markSafeAll_inv (rule_safe hs ht hsub hcnt), hacc⟩
    split
    · rename_i hlen
      exact ⟨hinv.markMineAll_inv (rule_mine hs ht hsub hlen), hacc⟩
    · refine ⟨hinv, ?_⟩
      intro s hsm
      rcases List.mem_append.mp hsm with h | h
      · exact hacc s h
      · rcases List.mem_singleton.mp h with rfl
        exact rule_sent hs ht hsub
  split
  · rename_i hall
    have hsub : ∀ c ∈ (st.knowledge.getD n default).cells,
        c ∈ (st.knowledge.getD k default).cells := by
      intro c hc
      have := List.all_eq_true.mp hall c hc
      simpa using this
    split
    · rename_i hcnt
      exact ⟨hinv.markSafeAll_inv (rule_safe ht hs hsub hcnt.symm), hacc⟩
    split
    · rename_i hlen
      exact ⟨hinv.markMineAll_inv (rule_mine ht hs hsub hlen), hacc⟩
    · refine ⟨hinv, ?_⟩
      intro s hsm
      rcases List.mem_append.mp hsm with h | h
      · exact hacc s h
      · rcases List.mem_singleton.mp h with rfl
        exact rule_sent ht hs hsub
  · exact ⟨hinv, hacc⟩

theorem inferLoop_inv {M : List Cell} {n : Nat} :
    ∀ (fuel k : Nat) (st : MinesweeperAI) (acc : List Sentence),
      st.Inv M → (∀ s ∈ acc, s.Sound M) →
      (inferLoop n fuel k st acc).1.Inv M ∧
        ∀ s ∈ (inferLoop n fuel k st acc).2, s.Sound M := by
  intro fuel
  induction fuel with
  | zero => intro k st acc hinv hacc; exact ⟨hinv, hacc⟩
  | succ fuel ih =>
    intro k st acc hinv hacc
    have hstep := inferStep_inv (n := n) (k := k) hinv hacc
    exact ih (k + 1) _ _ hstep.1 hstep.2

theorem neighborCandidates_nodup (cell : Cell) :
    (neighborCandidates cell).Nodup := by
  obtain ⟨i, j⟩ := cell
  simp [neighborCandidates, Prod.ext_iff]
  omega

theorem neighbors_nodup (h w : Int) (cell : Cell) :
    (neighbors h w cell).Nodup :=
  (neighborCandidates_nodup cell).filter _

/-- The sentence built by add_knowledge from the unknown neighbours is
sound whenever the supplied count is the true number of mines among the
in-bounds neighbours. -/
theorem newSentence_sound {M : List Cell} {st : MinesweeperAI}
    (count : Int) (nbrs : List Cell) (hinv : st.Inv M) (hnd : nbrs.Nodup)
    (hcount : (countMines M nbrs : Int) = count) :
    Sentence.Sound M
      ⟨nbrs.filter fun p => decide (p ∉ st.mines) && decide (p ∉ st.safes),
        count - (countIn nbrs st.mines : Int)⟩ := by
  refine ⟨hnd.filter _, ?_⟩
  dsimp only
  have h1 := countMines_split M nbrs (fun p => decide (p ∈ st.mines))
  have h2 : countMines M (nbrs.filter fun p => decide (p ∈ st.mines)) =
      countIn nbrs st.mines := by
    unfold countMines countIn
    congr 1
    apply List.filter_eq_self.mpr
    intro x hx
    have hxm : x ∈ st.mines := by simpa using (List.mem_filter.mp hx).2
    simpa using hinv.2.2 x hxm
  have h3 := countMines_split M
    (nbrs.filter fun p => !(decide (p ∈ st.mines)))
    (fun p => decide (p ∈ st.safes))
  have h4 : countMines M
      ((nbrs.filter fun p => !(decide (p ∈ st.mines))).filter
        fun p => decide (p ∈ st.safes)) = 0 := by
    unfold countMines
    rw [List.length_eq_zero]
    apply List.filter_eq_nil_iff.mpr
    intro x hx
    have hxs : x ∈ st.safes := by simpa using (List.mem_filter.mp hx).2
    simpa using hinv.2.1 x hxs
  have h5 : ((nbrs.filter fun p => !(decide (p ∈ st.mines))).filter
      fun p => !(decide (p ∈ st.safes))) =
      nbrs.filter (fun p => decide (p ∉ st.mines) && decide (p ∉ st.safes)) := by
    rw [List.filter_filter]
    apply List.filter_congr
    intro x _
    simp [decide_not, Bool.and_comm]
  rw [h5] at h3
  omega

theorem harvestStep_inv {M : List Cell} {st : MinesweeperAI}
    {kept : List Nat} {k : Nat} (hinv : st.Inv M) :
    (harvestStep st kept k).1.Inv M := by
  have hs := getD_sound hinv k
  simp only [harvestStep]
  have hsafeStage : ∀ st1 : MinesweeperAI, st1.Inv M →
      (match (st.knowledge.getD k default).known_mines with
        | some l => if l.isEmpty then st1 else markMineAll st1 l
        | none => st1).Inv M := by
    intro st1 h1
    cases hmn : (st.knowledge.getD k default).known_mines with
    | none => exact h1
    | some l =>
      by_cases he : l.isEmpty
      · simp [he, h1]
      · simp only [he, if_neg, if_false, Bool.false_eq_true]
        exact h1.markMineAll_inv (hs.known_mines_sound hmn)
  cases hsf : (st.knowledge.getD k default).known_safes with
  | none => exact hsafeStage st hinv
  | some l =>
    by_cases he : l.isEmpty
    · simp only [he, if_pos]
      exact hsafeStage st hinv
    · simp only [he, if_neg, if_false, Bool.false_eq_true]
      exact hsafeStage _ (hinv.markSafeAll_inv (hs.known_safes_sound hsf))

theorem harvestLoop_inv {M : List Cell} :
    ∀ (fuel k : Nat) (st : MinesweeperAI) (kept : List Nat), st.Inv M →
      (harvestLoop fuel k st kept).1.Inv M := by
  intro fuel
  induction fuel with
  | zero => intro k st kept h; exact h
  | succ fuel ih =>
    intro k st kept h
    exact ih (k + 1) _ _ (harvestStep_inv h)

theorem harvest_inv {M : List Cell} {st : MinesweeperAI} (hinv : st.Inv M) :
    st.add_known_safes_and_mines.Inv M := by
  simp only [MinesweeperAI.add_known_safes_and_mines]
  have hp := harvestLoop_inv st.knowledge.length 0 st [] hinv
  refine ⟨?_, hp.2.1, hp.2.2⟩
  intro s hsm
  obtain ⟨i, hi, rfl⟩ := List.mem_map.mp hsm
  exact getD_sound hp i

theorem removeDuplicates_prop {P : Sentence → Prop} :
    ∀ (kb acc : List Sentence), (∀ s ∈ acc, P s) → (∀ s ∈ kb, P s) →
      ∀ s ∈ kb.foldl
        (fun acc s => if acc.any fun u => s.eqv u then acc else acc ++ [s])
        acc, P s := by
  intro kb
  induction kb with
  | nil => intro acc ha _ s hs; exact ha s hs
  | cons a kb ih =>
    intro acc ha hk s hs
    simp only [List.foldl_cons] at hs
    by_cases hc : (acc.any fun u => a.eqv u) = true
    · rw [if_pos hc] at hs
      exact ih acc ha (fun t ht => hk t (List.mem_cons_of_mem a ht)) s hs
    · rw [if_neg hc] at hs
      refine ih (acc ++ [a]) ?_ (fun t ht => hk t (List.mem_cons_of_mem a ht)) s hs
      intro t ht
      rcases List.mem_append.mp ht with h | h
      · exact ha t h
      · rw [List.mem_singleton.mp h]
        exact hk a (List.mem_cons_self a kb)

theorem removeDuplicates_subset (kb : List Sentence) :
    ∀ s ∈ removeDuplicates kb, s ∈ kb :=
  removeDuplicates_prop kb [] (by simp) (fun _ hs => hs)

/-- Appending one sound sentence to the store preserves the invariant. -/
theorem MinesweeperAI.Inv.append_one {M : List Cell} {st : MinesweeperAI}
    {s : Sentence} (h : st.Inv M) (hs : s.Sound M) :
    MinesweeperAI.Inv M { st with knowledge := st.knowledge ++ [s] } := by
  refine ⟨?_, h.2.1, h.2.2⟩
  intro t ht
  rcases List.mem_append.mp ht with h1 | h1
  · exact h.1 t h1
  · rw [List.mem_singleton.mp h1]
    exact hs

/-- The inference loop, the extension of the store by the pending
inferences, the de-duplication and the final harvest all preserve the
invariant. -/
theorem stages_inv {M : List Cell} {st3 : MinesweeperAI} (hinv3 : st3.Inv M)
    (n fuel : Nat) :
    (let p := inferLoop n fuel 0 st3 []
     let st5 := { p.1 with knowledge := p.1.knowledge ++ p.2 }
     let st6 := { st5 with knowledge := removeDuplicates st5.knowledge }
     st6.add_known_safes_and_mines).Inv M := by
  have hp := inferLoop_inv (M := M) (n := n) fuel 0 st3 [] hinv3 (by simp)
  apply harvest_inv
  refine ⟨?_, hp.1.2.1, hp.1.2.2⟩
  intro s2 hsm
  have hmem := removeDuplicates_subset _ s2 hsm
  rcases List.mem_append.mp hmem with h | h
  · exact hp.1.1 s2 h
  · exact hp.2 s2 h

/-- add_knowledge preserves the invariant, provided the observed cell is
truly safe and the reported count is the true number of mines among its
in-bounds neighbours. -/
theorem add_knowledge_inv {M : List Cell} {st : MinesweeperAI} {cell : Cell}
    {count : Int} (hinv : st.Inv M) (hcell : cell ∉ M)
    (hcount : (countMines M (neighbors st.height st.width cell) : Int) = count) :
    (st.add_knowledge cell count).Inv M := by
  have hinv1 : MinesweeperAI.Inv M
      { st with moves_made := insertC cell st.moves_made } := hinv
  have hinv2 := hinv1.mark_safe_inv hcell
  have hnew := newSentence_sound count (neighbors st.height st.width cell)
    hinv2 (neighbors_nodup _ _ _) hcount
  exact stages_inv (hinv2.append_one hnew) _ _

/-! ## Monotonicity of the safes and mines sets -/

theorem grows_refl (a : MinesweeperAI) : grows a a :=
  ⟨fun _ h => h, fun _ h => h⟩

theorem grows_trans {a b c : MinesweeperAI} (h1 : grows a b)
    (h2 : grows b c) : grows a c :=
  ⟨fun _ h => h2.1 (h1.1 h), fun _ h => h2.2 (h1.2 h)⟩

theorem subset_insertC (c : Cell) (l : List Cell) : l ⊆ insertC c l := by
  intro x hx
  unfold insertC
  split
  · exact hx
  · exact List.mem_cons_of_mem c hx

theorem mem_insertC (c : Cell) (l : List Cell) : c ∈ insertC c l := by
  unfold insertC
  split
  · assumption
  · exact List.mem_cons_self c l

theorem grows_mark_safe (st : MinesweeperAI) (c : Cell) :
    grows st (st.mark_safe c) :=
  ⟨subset_insertC c st.safes, fun _ h => h⟩

theorem grows_mark_mine (st : MinesweeperAI) (c : Cell) :
    grows st (st.mark_mine c) :=
  ⟨fun _ h => h, subset_insertC c st.mines⟩

theorem grows_markSafeAll (cs : List Cell) :
    ∀ st : MinesweeperAI, grows st (markSafeAll st cs) := by
  induction cs with
  | nil => intro st; exact grows_refl st
  | cons a cs ih =>
    intro st
    exact grows_trans (grows_mark_safe st a) (ih (st.mark_safe a))

theorem grows_markMineAll (cs : List Cell) :
    ∀ st : MinesweeperAI, grows st (markMineAll st cs) := by
  induction cs with
  | nil => intro st; exact grows_refl st
  | cons a cs ih =>
    intro st
    exact grows_trans (grows_mark_mine st a) (ih (st.mark_mine a))

theorem grows_inferStep (n : Nat) (st : MinesweeperAI) (acc : List Sentence)
    (k : Nat) : grows st (inferStep n st acc k).1 := by
  simp only [inferStep]
  split
  · exact grows_refl st
  split
  · split
    · exact grows_markSafeAll _ st
    split
    · exact grows_markMineAll _ st
    · exact grows_refl st
  split
  · split
    · exact grows_markSafeAll _ st
    split
    · exact grows_markMineAll _ st
    · exact grows_refl st
  · exact grows_refl st

theorem grows_inferLoop (n : Nat) :
    ∀ (fuel k : Nat) (st : MinesweeperAI) (acc : List Sentence),
      grows st (inferLoop n fuel k st acc).1 := by
  intro fuel
  induction fuel with
  | zero => intro k st acc; exact grows_refl st
  | succ fuel ih =>
    intro k st acc
    exact grows_trans (grows_inferStep n st acc k) (ih (k + 1) _ _)

theorem grows_harvestStep (st : MinesweeperAI) (kept : List Nat) (k : Nat) :
    grows st (harvestStep st kept k).1 := by
  simp only [harvestStep]
  have h2 : ∀ st1 : MinesweeperAI,
      grows st1 (match (st.knowledge.getD k default).known_mines with
        | some l => if l.isEmpty then st1 else markMineAll st1 l
        | none => st1) := by
    intro st1
    cases (st.knowledge.getD k default).known_mines with
    | none => exact grows_refl st1
    | some l =>
      by_cases he : l.isEmpty
      · simp only [he, if_pos]
        exact grows_refl st1
      · simp only [he, if_neg, if_false, Bool.false_eq_true]
        exact grows_markMineAll l st1
  cases (st.knowledge.getD k default).known_safes with
  | none => exact h2 st
  | some l =>
    by_cases he : l.isEmpty
    · simp only [he, if_pos]
      exact h2 st
    · simp only [he, if_neg, if_false, Bool.false_eq_true]
      exact grows_trans (grows_markSafeAll l st) (h2 _)

theorem grows_harvestLoop :
    ∀ (fuel k : Nat) (st : MinesweeperAI) (kept : List Nat),
      grows st (harvestLoop fuel k st kept).1 := by
  intro fuel
  induction fuel with
  | zero => intro k st kept; exact grows_refl st
  | succ fuel ih =>
    intro k st kept
    exact grows_trans (grows_harvestStep st kept k) (ih (k + 1) _ _)

theorem grows_harvest (st : MinesweeperAI) :
    grows st st.add_known_safes_and_mines := by
  simp only [MinesweeperAI.add_known_safes_and_mines]
  exact grows_harvestLoop st.knowledge.length 0 st []

theorem grows_set_knowledge (st : MinesweeperAI) (kb : List Sentence) :
    grows st { st with knowledge := kb } :=
  ⟨fun _ h => h, fun _ h => h⟩

theorem grows_set_moves (st : MinesweeperAI) (mv : List Cell) :
    grows st { st with moves_made := mv } :=
  ⟨fun _ h => h, fun _ h => h⟩

theorem grows_stages (st3 : MinesweeperAI) (n fuel : Nat) :
    grows st3
      (MinesweeperAI.add_known_safes_and_mines
        { (inferLoop n fuel 0 st3 []).1 with
          knowledge := removeDuplicates
            ((inferLoop n fuel 0 st3 []).1.knowledge ++
              (inferLoop n fuel 0 st3 []).2) }) := by
  refine grows_trans (grows_inferLoop n fuel 0 st3 []) ?_
  refine grows_trans (grows_set_knowledge (inferLoop n fuel 0 st3 []).1
    (removeDuplicates ((inferLoop n fuel 0 st3 []).1.knowledge ++
      (inferLoop n fuel 0 st3 []).2))) ?_
  exact grows_harvest _

theorem grows_add_knowledge (st : MinesweeperAI) (cell : Cell)
    (count : Int) : grows st (st.add_knowledge cell count) := by
  simp only [MinesweeperAI.add_knowledge]
  exact grows_trans (grows_set_moves st _)
    (grows_trans (grows_mark_safe _ cell)
      (grows_trans (grows_set_knowledge _ _) (grows_stages _ _ _)))

theorem applyAct_inv {M : List Cell} {st : MinesweeperAI} {a : Act}
    (hinv : st.Inv M) (hpre : actPre M st a) : (st.applyAct a).Inv M := by
  cases a with
  | observe c k => exact add_knowledge_inv hinv hpre.1 hpre.2
  | flag c => exact hinv.mark_mine_inv hpre

theorem grows_applyAct (st : MinesweeperAI) (a : Act) :
    grows st (st.applyAct a) := by
  cases a with
  | observe c k => exact grows_add_knowledge st c k
  | flag c => exact grows_mark_mine st c

theorem runTrace_inv {M : List Cell} :
    ∀ (tr : List Act) (st : MinesweeperAI), st.Inv M → tracePre M st tr →
      (runTrace st tr).Inv M := by
  intro tr
  induction tr with
  | nil => intro st hinv _; exact hinv
  | cons a tr ih =>
    intro st hinv hpre
    exact ih (st.applyAct a) (applyAct_inv hinv hpre.1) hpre.2

theorem grows_runTrace :
    ∀ (tr : List Act) (st : MinesweeperAI), grows st (runTrace st tr) := by
  intro tr
  induction tr with
  | nil => intro st; exact grows_refl st
  | cons a tr ih =>
    intro st
    exact grows_trans (grows_applyAct st a) (ih (st.applyAct a))

theorem runTrace_append (st : MinesweeperAI) (tr1 tr2 : List Act) :
    runTrace st (tr1 ++ tr2) = runTrace (runTrace st tr1) tr2 :=
  List.foldl_append _ _ _ _

theorem init_inv (h w : Int) (M : List Cell) :
    (MinesweeperAI.init h w).Inv M := by
  refine ⟨?_, ?_, ?_⟩ <;> intro x hx <;> cases hx

/-- C4: for every sequence of observe and markMine calls whose documented
preconditions hold for the mine layout M (each observed cell is truly safe
and its count is the true neighbour mine count; each flagged cell is truly
a mine), the safes and mines sets of every reachable state are disjoint,
and a cell present in either set after a prefix of the trace is still in
that set at the end and never in the other. -/
theorem claim_soundness_disjoint_monotone (h w : Int) (M : List Cell)
    (tr1 tr2 : List Act)
    (hpre : tracePre M (MinesweeperAI.init h w) (tr1 ++ tr2)) :
    (∀ c : Cell,
      c ∈ (runTrace (MinesweeperAI.init h w) (tr1 ++ tr2)).safes →
      c ∉ (runTrace (MinesweeperAI.init h w) (tr1 ++ tr2)).mines) ∧
    (∀ c : Cell, c ∈ (runTrace (MinesweeperAI.init h w) tr1).safes →
      c ∈ (runTrace (MinesweeperAI.init h w) (tr1 ++ tr2)).safes ∧
      c ∉ (runTrace (MinesweeperAI.init h w) (tr1 ++ tr2)).mines) ∧
    (∀ c : Cell, c ∈ (runTrace (MinesweeperAI.init h w) tr1).mines →
      c ∈ (runTrace (MinesweeperAI.init h w) (tr1 ++ tr2)).mines ∧
      c ∉ (runTrace (MinesweeperAI.init h w) (tr1 ++ tr2)).safes) := by
  have hinv := runTrace_inv (tr1 ++ tr2) _ (init_inv h w M) hpre
  have hgrow : grows (runTrace (MinesweeperAI.init h w) tr1)
      (runTrace (MinesweeperAI.init h w) (tr1 ++ tr2)) := by
    rw [runTrace_append]
    exact grows_runTrace tr2 _
  have hdisj : ∀ c : Cell,
      c ∈ (runTrace (MinesweeperAI.init h w) (tr1 ++ tr2)).safes →
      c ∉ (runTrace (MinesweeperAI.init h w) (tr1 ++ tr2)).mines := by
    intro c hcs hcm
    exact hinv.2.1 c hcs (hinv.2.2 c hcm)
  refine ⟨hdisj, ?_, ?_⟩
  · intro c hc
    have hs := hgrow.1 hc
    exact ⟨hs, hdisj c hs⟩
  · intro c hc
    have hm := hgrow.2 hc
    exact ⟨hm, fun hs => hdisj c hs hm⟩

/-- Witness for C4: on a 1 by 2 board with the single mine at (0,1),
observing (0,0) with its true count 1 is a precondition-respecting trace;
the theorem then yields that (0,0), marked safe, is not in mines. -/
theorem claim_soundness_disjoint_monotone_witness :
    (0, 0) ∈ (runTrace (MinesweeperAI.init 1 2)
      [Act.observe (0, 0) 1]).safes ∧
    (0, 0) ∉ (runTrace (MinesweeperAI.init 1 2)
      [Act.observe (0, 0) 1]).mines := by
  have h := claim_soundness_disjoint_monotone 1 2 [(0, 1)]
    [Act.observe (0, 0) 1] [] (by decide)
  exact h.2.1 (0, 0) (by decide)

/-- C6: known_mines returns exactly the whole cell set when the count
equals the number of cells and nothing otherwise; known_safes returns
exactly the whole cell set when the count is zero and nothing otherwise
(both are read-only accessors of the model); and the worked example of the
spec holds. -/
theorem claim_known_mines_safes (s : Sentence) :
    (s.known_mines = some s.cells ↔ (s.cells.length : Int) = s.count) ∧
    (s.known_mines = none ↔ (s.cells.length : Int) ≠ s.count) ∧
    (s.known_safes = some s.cells ↔ s.count = 0) ∧
    (s.known_safes = none ↔ s.count ≠ 0) ∧
    Sentence.known_safes ⟨[(1, 1)], 0⟩ = some [(1, 1)] := by
  unfold Sentence.known_mines Sentence.known_safes
  refine ⟨?_, ?_, ?_, ?_, by decide⟩ <;> split <;> simp_all

/-- C7: marking a member cell as a mine removes it and decrements the
count by one, marking it safe removes it leaving the count unchanged, and
both are the identity on a non-member cell (and total by construction). -/
theorem claim_sentence_marking (s : Sentence) (c : Cell) :
    (c ∈ s.cells →
      c ∉ (s.mark_mine c).cells ∧
      (∀ x : Cell, x ≠ c → (x ∈ (s.mark_mine c).cells ↔ x ∈ s.cells)) ∧
      (s.mark_mine c).count = s.count - 1) ∧
    (c ∉ s.cells → s.mark_mine c = s) ∧
    (c ∈ s.cells →
      c ∉ (s.mark_safe c).cells ∧
      (∀ x : Cell, x ≠ c → (x ∈ (s.mark_safe c).cells ↔ x ∈ s.cells)) ∧
      (s.mark_safe c).count = s.count) ∧
    (c ∉ s.cells → s.mark_safe c = s) := by
  have hid : c ∉ s.cells →
      s.cells.filter (fun x => decide (x ≠ c)) = s.cells := by
    intro hns
    apply List.filter_eq_self.mpr
    intro x hx
    simp only [decide_eq_true_eq]
    exact fun he => hns (he ▸ hx)
  unfold Sentence.mark_mine Sentence.mark_safe
  refine ⟨fun hc => ⟨?_, fun x hx => ?_, ?_⟩, fun hc => ?_,
    fun hc => ⟨?_, fun x hx => ?_, ?_⟩, fun hc => ?_⟩
  · simp [List.mem_filter]
  · simp [List.mem_filter, hx]
  · simp [hc]
  · rw [hid hc, if_neg hc, Int.sub_zero]
  · simp [List.mem_filter]
  · simp [List.mem_filter, hx]
  · simp
  · rw [hid hc]

/-- Witness for C7: marking the member cell (0,0) of the sentence with
cells [(0,0)] and count 1 as a mine yields count 1 - 1, and marking the
non-member cell (1,1) safe is the identity. -/
theorem claim_sentence_marking_witness :
    ((⟨[(0, 0)], 1⟩ : Sentence).mark_mine (0, 0)).count = (1 : Int) - 1 ∧
    (⟨[(0, 0)], 1⟩ : Sentence).mark_safe (1, 1) = ⟨[(0, 0)], 1⟩ :=
  ⟨((claim_sentence_marking ⟨[(0, 0)], 1⟩ (0, 0)).1 (by decide)).2.2,
   (claim_sentence_marking ⟨[(0, 0)], 1⟩ (1, 1)).2.2.2 (by decide)⟩

/-- C8: for a sentence that is sound for the true mine layout (the
correct-usage precondition), the invariant 0 <= count <= number of cells
holds, and it still holds after mark_mine on a true mine and after
mark_safe on a truly safe cell; in particular the count never becomes
negative. -/
theorem claim_count_invariant (M : List Cell) (s : Sentence) (c : Cell)
    (hs : s.Sound M) :
    (0 ≤ s.count ∧ s.count ≤ (s.cells.length : Int)) ∧
    (c ∈ M → 0 ≤ (s.mark_mine c).count ∧
      (s.mark_mine c).count ≤ ((s.mark_mine c).cells.length : Int)) ∧
    (c ∉ M → 0 ≤ (s.mark_safe c).count ∧
      (s.mark_safe c).count ≤ ((s.mark_safe c).cells.length : Int)) :=
  ⟨hs.count_bounds, fun hc => (hs.of_mark_mine hc).count_bounds,
    fun hc => (hs.of_mark_safe hc).count_bounds⟩

/-- Witness for C8: the sentence with cells [(0,0)] and count 1 is sound
for the layout with the single mine (0,0); marking (0,0) as a mine keeps
the count within bounds. -/
theorem claim_count_invariant_witness :
    0 ≤ ((⟨[(0, 0)], 1⟩ : Sentence).mark_mine (0, 0)).count ∧
    ((⟨[(0, 0)], 1⟩ : Sentence).mark_mine (0, 0)).count ≤
      ((((⟨[(0, 0)], 1⟩ : Sentence).mark_mine (0, 0)).cells.length :
        Int)) :=
  (claim_count_invariant [(0, 0)] ⟨[(0, 0)], 1⟩ (0, 0)
    ⟨by decide, by decide⟩).2.1 (by decide)

/-- C10: make_safe_move never mutates the engine state: the state returned
alongside the chosen move is the state it was called on (the pop of the
source acts on the freshly computed difference set only). -/
theorem claim_make_safe_move_pure (st : MinesweeperAI) :
    (st.make_safe_move).2 = st ∧
    (st.make_safe_move).2.safes = st.safes ∧
    (st.make_safe_move).2.mines = st.mines ∧
    (st.make_safe_move).2.moves_made = st.moves_made ∧
    (st.make_safe_move).2.knowledge = st.knowledge := by
  have h2 : (st.make_safe_move).2 = st := by
    simp only [MinesweeperAI.make_safe_move]
    split <;> rfl
  rw [h2]
  exact ⟨rfl, rfl, rfl, rfl, rfl⟩

theorem randLoop_spec (st : MinesweeperAI) (pick : List Cell → Nat) :
    ∀ (fuel : Nat) (l : List Cell), l.length ≤ fuel →
      ((randLoop pick st fuel l = none ↔
        ∀ c ∈ l, c ∈ st.moves_made ∨ c ∈ st.mines) ∧
       (∀ c : Cell, randLoop pick st fuel l = some c →
        c ∈ l ∧ c ∉ st.moves_made ∧ c ∉ st.mines)) := by
  intro fuel
  induction fuel with
  | zero =>
    intro l hl
    have hnil : l = [] := List.length_eq_zero.mp (Nat.le_zero.mp hl)
    subst hnil
    refine ⟨by simp [randLoop], ?_⟩
    intro c hc
    simp [randLoop] at hc
  | succ fuel ih =>
    intro l hl
    cases l with
    | nil =>
      refine ⟨by simp [randLoop], ?_⟩
      intro c hc
      simp [randLoop] at hc
    | cons m ms =>
      have hidx : pick (m :: ms) % (m :: ms).length < (m :: ms).length :=
        Nat.mod_lt _ (by simp)
      have hc0mem : (m :: ms).getD (pick (m :: ms) % (m :: ms).length)
          default ∈ m :: ms := by
        rw [List.getD_eq_getElem _ _ hidx]
        exact List.getElem_mem _
      by_cases helig : (decide ((m :: ms).getD
            (pick (m :: ms) % (m :: ms).length) default ∉ st.moves_made) &&
          decide ((m :: ms).getD (pick (m :: ms) % (m :: ms).length)
            default ∉ st.mines)) = true
      · have heq : randLoop pick st (fuel + 1) (m :: ms) =
            some ((m :: ms).getD (pick (m :: ms) % (m :: ms).length)
              default) := by
          rw [randLoop, if_pos helig]
        rw [heq]
        have helig2 := helig
        simp only [Bool.and_eq_true, decide_eq_true_eq] at helig2
        constructor
        · constructor
          · intro hco
            cases hco
          · intro hall
            rcases hall _ hc0mem with hbad | hbad
            · exact absurd hbad helig2.1
            · exact absurd hbad helig2.2
        · intro c hc
          rw [Option.some_inj] at hc
          subst hc
          exact ⟨hc0mem, helig2.1, helig2.2⟩
      · have heq : randLoop pick st (fuel + 1) (m :: ms) =
            randLoop pick st fuel ((m :: ms).erase
              ((m :: ms).getD (pick (m :: ms) % (m :: ms).length)
                default)) := by
          rw [randLoop, if_neg helig]
        have hbad0 : (m :: ms).getD (pick (m :: ms) % (m :: ms).length)
            default ∈ st.moves_made ∨
            (m :: ms).getD (pick (m :: ms) % (m :: ms).length) default ∈
            st.mines := by
          simp only [Bool.and_eq_true, decide_eq_true_eq] at helig
          by_cases h1 : (m :: ms).getD (pick (m :: ms) % (m :: ms).length)
              default ∈ st.moves_made
          · exact Or.inl h1
          · refine Or.inr ?_
            by_contra h2
            exact helig ⟨h1, h2⟩
        have hlen2 : ((m :: ms).erase ((m :: ms).getD
            (pick (m :: ms) % (m :: ms).length) default)).length ≤ fuel := by
          rw [List.length_erase_of_mem hc0mem]
          simp only [List.length_cons] at hl ⊢
          omega
        have hrec := ih _ hlen2
        rw [heq]
        constructor
        · rw [hrec.1]
          constructor
          · intro hall c hc
            by_cases hcc : c = (m :: ms).getD
                (pick (m :: ms) % (m :: ms).length) default
            · rw [hcc]
              exact hbad0
            · exact hall c ((List.mem_erase_of_ne hcc).mpr hc)
          · intro hall c hc
            exact hall c (List.erase_subset _ _ hc)
        · intro c hc
          have := hrec.2 c hc
          exact ⟨List.erase_subset _ _ this.1, this.2⟩

/-- C9: make_safe_move returns nothing exactly when every known safe cell
has already been played, and otherwise a known safe unplayed cell; for
every random oracle, make_random_move returns nothing exactly when every
grid cell is already played or a known mine, and otherwise a grid cell
that is neither. -/
theorem claim_move_selection (st : MinesweeperAI) (pick : List Cell → Nat) :
    ((st.make_safe_move).1 = none ↔ ∀ c ∈ st.safes, c ∈ st.moves_made) ∧
    (∀ c : Cell, (st.make_safe_move).1 = some c →
      c ∈ st.safes ∧ c ∉ st.moves_made) ∧
    (st.make_random_move pick = none ↔
      ∀ c ∈ gridCells st.height st.width,
        c ∈ st.moves_made ∨ c ∈ st.mines) ∧
    (∀ c : Cell, st.make_random_move pick = some c →
      c ∈ gridCells st.height st.width ∧ c ∉ st.moves_made ∧
        c ∉ st.mines) := by
  have hrand := randLoop_spec st pick (gridCells st.height st.width).length
    (gridCells st.height st.width) (Nat.le_refl _)
  refine ⟨?_, ?_, hrand.1, hrand.2⟩
  · simp only [MinesweeperAI.make_safe_move]
    cases hf : st.safes.filter fun c => decide (c ∉ st.moves_made) with
    | nil =>
      simp only [true_iff]
      intro c hc
      by_contra hnc
      have : c ∈ st.safes.filter fun c => decide (c ∉ st.moves_made) :=
        List.mem_filter.mpr ⟨hc, by simpa using hnc⟩
      rw [hf] at this
      cases this
    | cons a l =>
      have ha : a ∈ st.safes.filter fun c => decide (c ∉ st.moves_made) := by
        rw [hf]
        exact List.mem_cons_self a l
      have hmem := List.mem_filter.mp ha
      constructor
      · intro hco
        exact absurd hco (Option.some_ne_none a)
      · intro hall
        exact absurd (hall a hmem.1) (by simpa using hmem.2)
  · intro c
    simp only [MinesweeperAI.make_safe_move]
    cases hf : st.safes.filter fun c => decide (c ∉ st.moves_made) with
    | nil => intro hc; cases hc
    | cons a l =>
      intro hc
      have hac : a = c := Option.some_inj.mp hc
      have ha : a ∈ st.safes.filter fun x => decide (x ∉ st.moves_made) := by
        rw [hf]
        exact List.mem_cons_self a l
      have hmem := List.mem_filter.mp ha
      rw [hac] at hmem
      exact ⟨hmem.1, by simpa using hmem.2⟩

/-- Witness for C9: on a fresh 1 by 1 engine with safes [(0,0)], the safe
move is (0,0), which is in safes and unplayed; with the constant-zero
oracle the random move on the fresh 1 by 1 engine is a grid cell. -/
theorem claim_move_selection_witness :
    ((0, 0) ∈ (⟨1, 1, [], [], [(0, 0)], []⟩ : MinesweeperAI).safes ∧
      (0, 0) ∉ (⟨1, 1, [], [], [(0, 0)], []⟩ :
        MinesweeperAI).moves_made) ∧
    ((0, 0) ∈ gridCells 1 1 ∧ (0, 0) ∉
      ([] : List Cell) ∧ (0, 0) ∉ ([] : List Cell)) := by
  refine ⟨(claim_move_selection ⟨1, 1, [], [], [(0, 0)], []⟩
    (fun _ => 0)).2.1 (0, 0) (by decide), ?_⟩
  exact (claim_move_selection ⟨1, 1, [], [], [(0, 0)], []⟩
    (fun _ => 0)).2.2.2 (0, 0) (by decide)

theorem mem_safes_markSafeAll :
    ∀ (cs : List Cell) (st : MinesweeperAI) (c : Cell), c ∈ cs →
      c ∈ (markSafeAll st cs).safes := by
  intro cs
  induction cs with
  | nil => intro st c hc; cases hc
  | cons a cs ih =>
    intro st c hc
    rcases List.mem_cons.mp hc with rfl | hc
    · exact (grows_markSafeAll cs (st.mark_safe c)).1 (mem_insertC c st.safes)
    · exact ih (st.mark_safe a) c hc

theorem mem_mines_markMineAll :
    ∀ (cs : List Cell) (st : MinesweeperAI) (c : Cell), c ∈ cs →
      c ∈ (markMineAll st cs).mines := by
  intro cs
  induction cs with
  | nil => intro st c hc; cases hc
  | cons a cs ih =>
    intro st c hc
    rcases List.mem_cons.mp hc with rfl | hc
    · exact (grows_markMineAll cs (st.mark_mine c)).2 (mem_insertC c st.mines)
    · exact ih (st.mark_mine a) c hc

theorem eqv_pairwise_aux :
    ∀ (kb acc : List Sentence),
      acc.Pairwise (fun a b => b.eqv a = false) →
      (kb.foldl
        (fun acc s => if acc.any fun u => s.eqv u then acc else acc ++ [s])
        acc).Pairwise (fun a b => b.eqv a = false) := by
  intro kb
  induction kb with
  | nil => intro acc h; exact h
  | cons a kb ih =>
    intro acc h
    simp only [List.foldl_cons]
    by_cases hc : (acc.any fun u => a.eqv u) = true
    · rw [if_pos hc]
      exact ih acc h
    · rw [if_neg hc]
      refine ih _ ?_
      rw [List.pairwise_append]
      refine ⟨h, List.pairwise_singleton _ _, ?_⟩
      intro x hx y hy
      rw [List.mem_singleton.mp hy]
      have hall : ∀ u ∈ acc, ¬(a.eqv u = true) := by
        intro u hu hau
        exact hc (List.any_eq_true.mpr ⟨u, hu, hau⟩)
      exact Bool.not_eq_true _ ▸ (Bool.eq_false_iff.mpr (hall x hx))

theorem removeDuplicates_pairwise (kb : List Sentence) :
    (removeDuplicates kb).Pairwise (fun a b => b.eqv a = false) :=
  eqv_pairwise_aux kb [] List.Pairwise.nil

/-- C5: for every compared pair of distinct sentences in the inference
step of the source, both subset directions of the rule are characterized.
When the stored sentence at index k is contained in the new sentence at
index n (the if branch of the source), and symmetrically when the new
sentence is contained in the stored one while the converse containment
fails (the elif branch, source lines 239 to 252), equal counts mark the
whole cell difference safe, a count difference equal to the size of the
cell difference marks it all as mines, and otherwise the difference
sentence is appended to the pending list (kept only if not already
present, by the de-duplication pass, stated as the pairwise inequality of
the de-duplicated store).  The worked examples of the spec hold end to end
through add_knowledge with the subset sentence stored and the superset
observed (first branch), and also with the superset stored and the subset
observed (second branch). -/
theorem claim_subset_inference (st : MinesweeperAI) (acc : List Sentence)
    (n k : Nat) (s t : Sentence) (d1 d2 : List Cell)
    (hs : st.knowledge.getD k default = s)
    (ht : st.knowledge.getD n default = t)
    (hne : s.eqv t = false)
    (hd1 : t.cells.filter (fun c => decide (c ∉ s.cells)) = d1)
    (hd2 : s.cells.filter (fun c => decide (c ∉ t.cells)) = d2) :
    ((∀ c ∈ s.cells, c ∈ t.cells) →
      (s.count = t.count →
        inferStep n st acc k = (markSafeAll st d1, acc) ∧
        ∀ c ∈ d1, c ∈ (markSafeAll st d1).safes) ∧
      (s.count ≠ t.count → (d1.length : Int) = t.count - s.count →
        inferStep n st acc k = (markMineAll st d1, acc) ∧
        ∀ c ∈ d1, c ∈ (markMineAll st d1).mines) ∧
      (s.count ≠ t.count → (d1.length : Int) ≠ t.count - s.count →
        inferStep n st acc k = (st, acc ++ [⟨d1, t.count - s.count⟩]))) ∧
    (¬(∀ c ∈ s.cells, c ∈ t.cells) → (∀ c ∈ t.cells, c ∈ s.cells) →
      (s.count = t.count →
        inferStep n st acc k = (markSafeAll st d2, acc) ∧
        ∀ c ∈ d2, c ∈ (markSafeAll st d2).safes) ∧
      (s.count ≠ t.count → (d2.length : Int) = s.count - t.count →
        inferStep n st acc k = (markMineAll st d2, acc) ∧
        ∀ c ∈ d2, c ∈ (markMineAll st d2).mines) ∧
      (s.count ≠ t.count → (d2.length : Int) ≠ s.count - t.count →
        inferStep n st acc k = (st, acc ++ [⟨d2, s.count - t.count⟩]))) ∧
    (∀ kb : List Sentence,
      (removeDuplicates kb).Pairwise (fun a b => b.eqv a = false)) ∧
    (0, 2) ∈ ((⟨2, 3, [], [], [(1, 0), (1, 2)],
      [⟨[(0, 0), (0, 1)], 1⟩]⟩ : MinesweeperAI).add_knowledge
        (1, 1) 1).safes ∧
    (0, 1) ∈ ((⟨2, 2, [], [], [(1, 1)],
      [⟨[(0, 0)], 1⟩]⟩ : MinesweeperAI).add_knowledge (1, 0) 2).mines ∧
    (0, 2) ∈ ((⟨2, 3, [], [], [(1, 1)],
      [⟨[(0, 0), (0, 1), (0, 2)], 1⟩]⟩ : MinesweeperAI).add_knowledge
        (1, 0) 1).safes ∧
    (0, 2) ∈ ((⟨2, 3, [], [], [(1, 1)],
      [⟨[(0, 0), (0, 1), (0, 2)], 2⟩]⟩ : MinesweeperAI).add_knowledge
        (1, 0) 1).mines := by
  refine ⟨?_, ?_, removeDuplicates_pairwise,
    by decide, by decide, by decide, by decide⟩
  · intro hsub1
    have hall : (s.cells.all fun c => decide (c ∈ t.cells)) = true :=
      List.all_eq_true.mpr fun c hc => by simpa using hsub1 c hc
    refine ⟨?_, ?_, ?_⟩
    · intro hcnt
      constructor
      · simp only [inferStep, hs, ht, hne, hall, hd1, hcnt]
        simp
      · intro c hc
        exact mem_safes_markSafeAll d1 st c hc
    · intro hcnt hlen
      constructor
      · simp only [inferStep, hs, ht, hne, hall, hd1]
        simp [hcnt, hlen]
      · intro c hc
        exact mem_mines_markMineAll d1 st c hc
    · intro hcnt hlen
      simp only [inferStep, hs, ht, hne, hall, hd1]
      simp [hcnt, hlen]
  · intro hnsub hsub2
    have hall1 : (s.cells.all fun c => decide (c ∈ t.cells)) = false := by
      refine Bool.eq_false_iff.mpr fun htrue => hnsub fun c hc => ?_
      simpa using List.all_eq_true.mp htrue c hc
    have hall2 : (t.cells.all fun c => decide (c ∈ s.cells)) = true :=
      List.all_eq_true.mpr fun c hc => by simpa using hsub2 c hc
    refine ⟨?_, ?_, ?_⟩
    · intro hcnt
      constructor
      · simp only [inferStep, hs, ht, hne, hall1, hall2, hd2, hcnt]
        simp
      · intro c hc
        exact mem_safes_markSafeAll d2 st c hc
    · intro hcnt hlen
      constructor
      · simp only [inferStep, hs, ht, hne, hall1, hall2, hd2]
        simp [hcnt, hlen]
      · intro c hc
        exact mem_mines_markMineAll d2 st c hc
    · intro hcnt hlen
      simp only [inferStep, hs, ht, hne, hall1, hall2, hd2]
      simp [hcnt, hlen]

/-- Witness for C5: with the stored sentence of the spec mine example as
the superset at index 0 and the new sentence as its subset at index 1 (the
elif branch of the source), the inference step marks the difference cell
(0,1) as a mine; with the roles exchanged in the stores of the first
branch, the step marks it as well. -/
theorem claim_subset_inference_witness :
    inferStep 1 (⟨2, 2, [], [], [], [⟨[(0, 0), (0, 1)], 2⟩,
      ⟨[(0, 0)], 1⟩]⟩ : MinesweeperAI) [] 0 =
    (markMineAll (⟨2, 2, [], [], [], [⟨[(0, 0), (0, 1)], 2⟩,
      ⟨[(0, 0)], 1⟩]⟩ : MinesweeperAI) [(0, 1)], []) ∧
    inferStep 1 (⟨2, 2, [], [], [], [⟨[(0, 0)], 1⟩,
      ⟨[(0, 0), (0, 1)], 2⟩]⟩ : MinesweeperAI) [] 0 =
    (markMineAll (⟨2, 2, [], [], [], [⟨[(0, 0)], 1⟩,
      ⟨[(0, 0), (0, 1)], 2⟩]⟩ : MinesweeperAI) [(0, 1)], []) :=
  ⟨(((claim_subset_inference _ [] 1 0 ⟨[(0, 0), (0, 1)], 2⟩ ⟨[(0, 0)], 1⟩
      [] [(0, 1)] (by decide) (by decide) (by decide) (by decide)
      (by decide)).2.1 (by decide) (by decide)).2.1 (by decide)
      (by decide)).1,
   (((claim_subset_inference _ [] 1 0 ⟨[(0, 0)], 1⟩ ⟨[(0, 0), (0, 1)], 2⟩
      [(0, 1)] [] (by decide) (by decide) (by decide) (by decide)
      (by decide)).1 (by decide)).2.1 (by decide) (by decide)).1⟩

/-! ## Behaviour of the harvest on sentences with an empty cell set -/

theorem empty_at_map {st : MinesweeperAI} {k : Nat} {f : Sentence → Sentence}
    (hf : ∀ s : Sentence, s.cells = [] → (f s).cells = [])
    (h : (st.knowledge.getD k default).cells = []) :
    ((st.knowledge.map f).getD k default).cells = [] := by
  by_cases hk : k < st.knowledge.length
  · rw [List.getD_eq_getElem _ _ (by simpa using hk), List.getElem_map]
    apply hf
    rw [List.getD_eq_getElem _ _ hk] at h
    exact h
  · rw [List.getD_eq_default _ _ (by simpa using Nat.le_of_not_lt hk)]
    rfl

theorem empty_at_mark_safe {st : MinesweeperAI} {k : Nat} (c : Cell)
    (h : (st.knowledge.getD k default).cells = []) :
    (((st.mark_safe c).knowledge).getD k default).cells = [] :=
  empty_at_map (fun s hs => by simp [Sentence.mark_safe, hs]) h

theorem empty_at_mark_mine {st : MinesweeperAI} {k : Nat} (c : Cell)
    (h : (st.knowledge.getD k default).cells = []) :
    (((st.mark_mine c).knowledge).getD k default).cells = [] :=
  empty_at_map (fun s hs => by simp [Sentence.mark_mine, hs]) h

theorem empty_at_markSafeAll {k : Nat} :
    ∀ (cs : List Cell) (st : MinesweeperAI),
      (st.knowledge.getD k default).cells = [] →
      ((markSafeAll st cs).knowledge.getD k default).cells = [] := by
  intro cs
  induction cs with
  | nil => intro st h; exact h
  | cons a cs ih => intro st h; exact ih _ (empty_at_mark_safe a h)

theorem empty_at_markMineAll {k : Nat} :
    ∀ (cs : List Cell) (st : MinesweeperAI),
      (st.knowledge.getD k default).cells = [] →
      ((markMineAll st cs).knowledge.getD k default).cells = [] := by
  intro cs
  induction cs with
  | nil => intro st h; exact h
  | cons a cs ih => intro st h; exact ih _ (empty_at_mark_mine a h)

theorem empty_at_harvestStep {st : MinesweeperAI} {kept : List Nat}
    {k0 k : Nat} (h : (st.knowledge.getD k default).cells = []) :
    ((harvestStep st kept k0).1.knowledge.getD k default).cells = [] := by
  simp only [harvestStep]
  have h2 : ∀ st1 : MinesweeperAI,
      (st1.knowledge.getD k default).cells = [] →
      ((match (st.knowledge.getD k0 default).known_mines with
        | some l => if l.isEmpty then st1 else markMineAll st1 l
        | none => st1).knowledge.getD k default).cells = [] := by
    intro st1 h1
    cases (st.knowledge.getD k0 default).known_mines with
    | none => exact h1
    | some l =>
      by_cases he : l.isEmpty
      · simp only [he, if_pos]
        exact h1
      · simp only [he, if_neg, if_false, Bool.false_eq_true]
        exact empty_at_markMineAll l st1 h1
  cases (st.knowledge.getD k0 default).known_safes with
  | none => exact h2 st h
  | some l =>
    by_cases he : l.isEmpty
    · simp only [he, if_pos]
      exact h2 st h
    · simp only [he, if_neg, if_false, Bool.false_eq_true]
      exact h2 _ (empty_at_markSafeAll l st h)

theorem empty_at_harvestLoop {k : Nat} :
    ∀ (fuel k0 : Nat) (st : MinesweeperAI) (kept : List Nat),
      (st.knowledge.getD k default).cells = [] →
      ((harvestLoop fuel k0 st kept).1.knowledge.getD k default).cells = [] := by
  intro fuel
  induction fuel with
  | zero => intro k0 st kept h; exact h
  | succ fuel ih =>
    intro k0 st kept h
    exact ih (k0 + 1) _ _ (empty_at_harvestStep h)

theorem harvestStep_kept_sub (st : MinesweeperAI) (kept : List Nat)
    (k0 : Nat) : kept ⊆ (harvestStep st kept k0).2 := by
  simp only [harvestStep]
  split
  · exact fun x hx => hx
  · exact fun x hx => List.mem_append.mpr (Or.inl hx)

theorem harvestLoop_kept_sub :
    ∀ (fuel k0 : Nat) (st : MinesweeperAI) (kept : List Nat),
      kept ⊆ (harvestLoop fuel k0 st kept).2 := by
  intro fuel
  induction fuel with
  | zero => intro k0 st kept x hx; exact hx
  | succ fuel ih =>
    intro k0 st kept x hx
    exact ih (k0 + 1) _ _ (harvestStep_kept_sub st kept k0 hx)

theorem harvestStep_keeps_empty (st : MinesweeperAI) (kept : List Nat)
    (k : Nat) (h : (st.knowledge.getD k default).cells = []) :
    (harvestStep st kept k).2 = kept ++ [k] := by
  simp only [harvestStep, Sentence.known_safes, Sentence.known_mines, h]
  by_cases h0 : (st.knowledge.getD k default).count = 0
  · simp_all
  · simp_all
    rw [if_neg fun he => h0 he.symm]

theorem harvestLoop_empty_kept {k : Nat} :
    ∀ (fuel k0 : Nat) (st : MinesweeperAI) (kept : List Nat),
      (st.knowledge.getD k default).cells = [] →
      k0 ≤ k → k < k0 + fuel →
      k ∈ (harvestLoop fuel k0 st kept).2 := by
  intro fuel
  induction fuel with
  | zero => intro k0 st kept _ h1 h2; omega
  | succ fuel ih =>
    intro k0 st kept h hle hlt
    by_cases hk : k = k0
    · subst hk
      have hkeep := harvestStep_keeps_empty st kept k h
      have hsub := harvestLoop_kept_sub fuel (k + 1)
        (harvestStep st kept k).1 (harvestStep st kept k).2
      have hmem : k ∈ (harvestStep st kept k).2 := by
        rw [hkeep]
        exact List.mem_append.mpr (Or.inr (List.mem_singleton.mpr rfl))
      exact hsub hmem
    · exact ih (k0 + 1) _ _ (empty_at_harvestStep h) (by omega) (by omega)

/-- C3 amended, general part: the harvest never discards a sentence whose
cell set is empty (its trivial-conclusion extractions are an empty set or
nothing, which Python truthiness treats as no conclusion), so if the store
holds a sentence with empty cells before add_known_safes_and_mines, it
still holds one afterwards. -/
theorem claim_empty_sentence_kept (st : MinesweeperAI)
    (hex : ∃ s ∈ st.knowledge, s.cells = []) :
    (∃ s ∈ st.add_known_safes_and_mines.knowledge, s.cells = []) ∧
    ((MinesweeperAI.init 1 1).add_knowledge (0, 0) 0).knowledge =
      [⟨[], 0⟩] := by
  refine ⟨?_, by decide⟩
  obtain ⟨s, hsmem, hcells⟩ := hex
  obtain ⟨i, hi, hieq⟩ := List.mem_iff_getElem.mp hsmem
  have hgi : (st.knowledge.getD i default).cells = [] := by
    rw [List.getD_eq_getElem _ _ hi, hieq]
    exact hcells
  simp only [MinesweeperAI.add_known_safes_and_mines]
  have hkept := harvestLoop_empty_kept st.knowledge.length 0 st []
    hgi (Nat.zero_le i) (by omega)
  have hempty := empty_at_harvestLoop st.knowledge.length 0 st [] hgi
  refine ⟨(harvestLoop st.knowledge.length 0 st []).1.knowledge.getD i
    default, ?_, hempty⟩
  exact List.mem_map_of_mem _ hkept

/-- Witness for C3 amended: the harvest of an engine whose store is the
single empty sentence keeps an empty sentence. -/
theorem claim_empty_sentence_kept_witness :
    ∃ s ∈ (MinesweeperAI.add_known_safes_and_mines
      ⟨1, 1, [], [], [], [⟨[], 0⟩]⟩).knowledge, s.cells = [] :=
  (claim_empty_sentence_kept ⟨1, 1, [], [], [], [⟨[], 0⟩]⟩
    ⟨⟨[], 0⟩, List.mem_singleton.mpr rfl, rfl⟩).1

/-- C3 counterexample: on a 1 by 1 board (no in-bounds neighbours),
observing the single cell with its true count 0 is a legitimate
observation, yet after observe the store holds exactly the sentence with
an empty cell set and count 0: observe appended it and the harvest kept
it. -/
theorem claim_no_empty_sentence_cex :
    tracePre [] (MinesweeperAI.init 1 1) [Act.observe (0, 0) 0] ∧
    ((MinesweeperAI.init 1 1).add_knowledge (0, 0) 0).knowledge =
      [⟨[], 0⟩] ∧
    ∃ s ∈ ((MinesweeperAI.init 1 1).add_knowledge (0, 0) 0).knowledge,
      s.cells = [] := by decide

/-- C2 counterexample: after the last observe of the trace, the store
still holds the sentence with cells [(0,0),(0,1),(0,2)] although (0,2) is
in safes — the inference pending in the local list of observe escaped the
stripping. -/
theorem claim_resolved_cell_left_cex :
    tracePre [(0, 0)] (MinesweeperAI.init 3 3) traceC2 ∧
    (⟨[(0, 0), (0, 1), (0, 2)], 1⟩ : Sentence) ∈
      (runTrace (MinesweeperAI.init 3 3) traceC2).knowledge ∧
    (0, 2) ∈ (runTrace (MinesweeperAI.init 3 3) traceC2).safes := by decide

/-- C2 amended: at the moment a cell is resolved, it is stripped from
every constraint currently in the store (mark_safe and mark_mine leave no
stored sentence mentioning the cell); but inferences pending in the local
list of observe are not stripped, so the at-rest form of the invariant can
fail, as the counterexample shows. -/
theorem claim_resolved_cell_stripped_from_store (st : MinesweeperAI)
    (c : Cell) :
    (∀ s ∈ (st.mark_safe c).knowledge, c ∉ s.cells) ∧
    (∀ s ∈ (st.mark_mine c).knowledge, c ∉ s.cells) := by
  constructor <;>
    · intro s hs
      obtain ⟨s0, hs0, rfl⟩ := List.mem_map.mp hs
      simp [Sentence.mark_safe, Sentence.mark_mine, List.mem_filter]

/-- Witness for C2 amended: marking (0,0) safe on an engine whose store
is the single sentence with cells [(0,0)] strips it from that sentence. -/
theorem claim_resolved_cell_stripped_from_store_witness :
    (0, 0) ∉ (Sentence.mark_safe ⟨[(0, 0)], 1⟩ (0, 0)).cells :=
  (claim_resolved_cell_stripped_from_store
    ⟨1, 1, [], [], [], [⟨[(0, 0)], 1⟩]⟩ (0, 0)).1
    (Sentence.mark_safe ⟨[(0, 0)], 1⟩ (0, 0))
    (List.mem_map_of_mem _ (List.mem_singleton.mpr rfl))

/-- C1 fails on the code: after the last observe of the trace the store
still holds the sentence with cells [(0,0)] and count 1, whose single cell
is concludable as a mine, yet (0,0) is not in mines; the store also holds
the pair [(0,0)] and [(0,0),(2,0)] with equal counts from which (2,0) is
derivable safe, yet (2,0) is not in safes; re-running just the harvest of
the source marks (0,0) and changes the state, so the state at rest is not
a saturation fixed point. -/
theorem claim_fixed_point_fails :
    tracePre [(0, 0)] (MinesweeperAI.init 3 3) traceC1 ∧
    (⟨[(0, 0)], 1⟩ : Sentence) ∈
      (runTrace (MinesweeperAI.init 3 3) traceC1).knowledge ∧
    (⟨[(0, 0), (2, 0)], 1⟩ : Sentence) ∈
      (runTrace (MinesweeperAI.init 3 3) traceC1).knowledge ∧
    (0, 0) ∉ (runTrace (MinesweeperAI.init 3 3) traceC1).mines ∧
    (2, 0) ∉ (runTrace (MinesweeperAI.init 3 3) traceC1).safes ∧
    (0, 0) ∈ (MinesweeperAI.add_known_safes_and_mines
      (runTrace (MinesweeperAI.init 3 3) traceC1)).mines ∧
    MinesweeperAI.add_known_safes_and_mines
      (runTrace (MinesweeperAI.init 3 3) traceC1) ≠
      runTrace (MinesweeperAI.init 3 3) traceC1 := by decide

end Minesweeper
